import Mathlib

/-!
Shallow embedding of the indexing and retrieval core of `Crawler_logic.py`
(an inverted-index web-search backend), together with proofs of the
specification's claims about it.

Modelling conventions:
* Python `float` weights are modelled as exact rationals `ℚ`; every weight
  the program computes is of the form `0.5 + 0.5 * freq / maxFreq`
  (possibly doubled and summed), all rational operations.
* Python `dict`s are insertion-ordered association lists; `defaultdict`
  access with `+=` is `alAdd`, which appends a fresh key at the end
  (Python dict insertion order) or updates the existing entry in place.
* The Porter stemmer and the HTML parser are third-party libraries
  (`nltk`, `bs4`); following the design document they are modelled as
  pluggable parameters: a `stem : String → String` function, and
  per-document extraction outcomes.
* File I/O is modelled by passing the data that would be read: a
  document's read outcome is an `Except` value, and segment files are
  the in-memory indexes they serialize.
-/

namespace Crawler

abbrev Term := String
abbrev DocID := String

/-- A Python `dict` keyed by strings, as an insertion-ordered association
list.  Well-formed dicts have pairwise-distinct keys. -/
abbrev Dict (β : Type) := List (String × β)

/-- Python `d.get(k)` : the value at the first (for a well-formed dict,
only) entry with key `k`. -/
def alGet {β : Type} (l : Dict β) (k : String) : Option β :=
  (l.find? (fun p => p.1 == k)).map (·.2)

/-- Python `k in d`. -/
def alMem {β : Type} (l : Dict β) (k : String) : Bool :=
  (l.find? (fun p => p.1 == k)).isSome

/-- Python `d[k] = f(d.get(k))`: update in place if the key exists,
otherwise append at the end (dict insertion order). -/
def alUpdate {β : Type} (l : Dict β) (k : String) (f : Option β → β) : Dict β :=
  match l with
  | [] => [(k, f none)]
  | (k', v) :: rest =>
      if k' == k then (k', f (some v)) :: rest
      else (k', v) :: alUpdate rest k f

/-- The keys of a dict, in insertion order. -/
def alKeys {β : Type} (l : Dict β) : List String := l.map (·.1)

/-- A posting list: Python's inner `dict` mapping `DocID` to its
accumulated weight. -/
abbrev PostingList := Dict ℚ

/-- An inverted index: Python's `defaultdict(lambda: defaultdict(float))`
mapping each `Term` to its posting list. -/
abbrev InvIndex := Dict PostingList

/-- Python `posting[d] += w` on a `defaultdict(float)`: absent keys read
as `0.0`. -/
def plAdd (pl : PostingList) (d : DocID) (w : ℚ) : PostingList :=
  alUpdate pl d (fun o => o.getD 0 + w)

/-- Python `index[t][d] += w` on a `defaultdict(lambda: defaultdict(float))`. -/
def idxAdd (idx : InvIndex) (t : Term) (d : DocID) (w : ℚ) : InvIndex :=
  alUpdate idx t (fun o => plAdd (o.getD []) d w)

/-- The weight the index records for `(t, d)`; `0` when the pair is
absent (the `defaultdict(float)` default). -/
def idxWeight (idx : InvIndex) (t : Term) (d : DocID) : ℚ :=
  ((alGet ((alGet idx t).getD []) d)).getD 0

/-- Whether the pair `(t, d)` has an entry in the index. -/
def idxPairMem (idx : InvIndex) (t : Term) (d : DocID) : Bool :=
  alMem ((alGet idx t).getD []) d

/-! ### Normalizer (`tokenize_and_normalize`, lines 93–112) -/

/-- A word character of the tokenizing regular expression `\b\w+\b`:
letters, digits and underscore (the ASCII core of `\w`). -/
def isWordChar (c : Char) : Bool := c.isAlphanum || c == '_'

/-- Split a character list into its maximal runs of word characters,
dropping the delimiters: the match list of `\b\w+\b`. -/
def wordRuns (cs : List Char) : List (List Char) :=
  let step : Char → List (List Char) × List Char → List (List Char) × List Char :=
    fun c (acc, cur) =>
      if isWordChar c then (acc, c :: cur)
      else if cur.isEmpty then (acc, []) else (cur :: acc, [])
  let (acc, cur) := cs.foldr step ([], [])
  if cur.isEmpty then acc else cur :: acc

/-- `tokenize_and_normalize` (lines 93–112): lowercase the text
(character-wise, the behaviour of `text.lower()`), take the maximal
word-character runs as tokens, and stem each token.  The Porter stemmer
is the external `nltk` library, passed in as `stem`. -/
def tokenize_and_normalize (stem : String → String) (text : String) : List Term :=
  (wordRuns (text.toList.map Char.toLower)).map (fun run => stem (String.mk run))

/-! ### Weighted posting builder (`build_inverted_index`, lines 119–165) -/

/-- The raw term frequency of `t` in the document's token list:
`term_frequency[t]` at line 143. -/
def term_frequency (tokens : List Term) (t : Term) : Nat := tokens.count t

/-- Helper for `firstDedup`: keep the tokens not yet seen, in order. -/
def firstDedupAux (seen : List Term) : List Term → List Term
  | [] => []
  | t :: rest =>
      if t ∈ seen then firstDedupAux seen rest
      else t :: firstDedupAux (t :: seen) rest

/-- The distinct tokens in first-occurrence order: the iteration order of
Python's `term_frequency` dict (line 150). -/
def firstDedup (l : List Term) : List Term := firstDedupAux [] l

/-- `max_tf = max(term_frequency.values())` (line 148). -/
def max_tf (tokens : List Term) : Nat :=
  ((firstDedup tokens).map (fun t => term_frequency tokens t)).foldr max 0

/-- The weight line 154 computes for one term, with the key-text doubling
of lines 156–157: `tf = 0.5 + (0.5 * freq / max_tf)`, then `tf *= 2` when
the term occurs among the key tokens. -/
def tfWeight (tokens key_tokens : List Term) (t : Term) : ℚ :=
  let tf : ℚ := 1/2 + (1/2 * (term_frequency tokens t : ℚ)) / (max_tf tokens : ℚ)
  if t ∈ key_tokens then 2 * tf else tf

/-- `build_inverted_index` (lines 119–159): count frequencies, and for
each distinct term accumulate its weight into the shared index at this
document.  An empty token list is a no-op (line 145). -/
def build_inverted_index (doc_id : DocID) (tokens key_tokens : List Term)
    (inverted_index : InvIndex) : InvIndex :=
  if tokens = [] then inverted_index
  else
    (firstDedup tokens).foldl
      (fun idx t => idxAdd idx t doc_id (tfWeight tokens key_tokens t))
      inverted_index

/-- The square of the document length stored at lines 161–165
(`sum_of_squares`); the source stores its square root `math.sqrt`, an
external irrational function, so the model tracks the radicand. -/
def doc_length_sq (tokens : List Term) : ℚ :=
  ((firstDedup tokens).map (fun t => ((term_frequency tokens t : ℚ)) ^ 2)).sum

/-! ### External read and extraction wrappers (lines 25–90) -/

/-- `read_json_file` (lines 25–41): the file read and JSON parse are
external I/O, represented by their outcome; the `try`/`except` returns
the `(content, url)` pair on success and `("", "")` on any failure. -/
def read_json_file (outcome : Except String (String × String)) : String × String :=
  match outcome with
  | .ok v => v
  | .error _ => ("", "")

/-- `extract_text_from_html` (lines 44–90): the HTML parse (`bs4`) is an
external library, represented by its outcome `(text, key_text)`; the
`try`/`except` returns `("", "")` on any failure. -/
def extract_text_from_html (outcome : Except String (String × String)) :
    String × String :=
  match outcome with
  | .ok v => v
  | .error _ => ("", "")

/-! ### Segment flush controller (`save_partial_index` lines 168–193,
`process_all_documents` lines 196–247) -/

/-- The segment filename `save_partial_index` (lines 168–193) creates and
returns for part number `part_num`; the serialization itself is external
file I/O. -/
def save_partial_index (part_num : Nat) : String :=
  "partial_index_" ++ toString part_num ++ ".json"

/-- One input of the ingestion loop: a file found by the directory walk,
with the outcome of reading it.  `isJson` is `file.endswith(".json")`
(line 217), and `raw` is the `read_json_file` outcome for its path. -/
structure SrcDoc where
  path : String
  isJson : Bool
  raw : Except String (String × String)

/-- The mutable state of `process_all_documents` (lines 210–213) together
with the global `doc_id_to_url` table (line 21). -/
structure IngestState where
  doc_count : Nat
  part_num : Nat
  partial_files : List String
  inverted_index : InvIndex
  doc_id_to_url : Dict String
deriving DecidableEq

/-- The initial ingestion state (lines 210–213 and the empty global
`doc_id_to_url`). -/
def initState : IngestState :=
  { doc_count := 0, part_num := 1, partial_files := [],
    inverted_index := [], doc_id_to_url := [] }

/-- The body of the ingestion loop (lines 217–240) for one directory
entry: skip non-`.json` files and documents with empty content, otherwise
extract, tokenize, build postings, record the URL, count the document and
flush a segment when the count reaches a multiple of 10000, clearing the
in-memory index.  The HTML parser is the pluggable `extractor`. -/
def processDoc (stem : String → String)
    (extractor : String → Except String (String × String))
    (s : IngestState) (d : SrcDoc) : IngestState :=
  if d.isJson then
    let cu := read_json_file d.raw
    if cu.1 = "" then s
    else
      let tk := extract_text_from_html (extractor cu.1)
      let tokens := tokenize_and_normalize stem tk.1
      let key_tokens := tokenize_and_normalize stem tk.2
      let idx := build_inverted_index d.path tokens key_tokens s.inverted_index
      let urls := alUpdate s.doc_id_to_url d.path (fun _ => cu.2)
      let count := s.doc_count + 1
      if count % 10000 = 0 then
        { doc_count := count, part_num := s.part_num + 1,
          partial_files := s.partial_files ++ [save_partial_index s.part_num],
          inverted_index := [], doc_id_to_url := urls }
      else
        { doc_count := count, part_num := s.part_num,
          partial_files := s.partial_files,
          inverted_index := idx, doc_id_to_url := urls }
  else s

/-- `process_all_documents` (lines 196–247): fold the loop body over the
walked files, then flush one final segment when the in-memory index is
non-empty (lines 242–244); returns the list of segment filenames. -/
def process_all_documents (stem : String → String)
    (extractor : String → Except String (String × String))
    (docs : List SrcDoc) : List String :=
  let s := docs.foldl (processDoc stem extractor) initState
  if s.inverted_index = [] then s.partial_files
  else s.partial_files ++ [save_partial_index s.part_num]

/-! ### Segment merger (`merge_partial_indexes`, lines 250–275) -/

/-- `merge_partial_indexes` (lines 250–275): segment files are modelled
by the indexes they serialize; for every `(term, doc_id, tf)` of every
segment, in order, accumulate `tf` into the final index. -/
def merge_partial_indexes (partial_files : List InvIndex) : InvIndex :=
  partial_files.foldl
    (fun final partial_index =>
      partial_index.foldl
        (fun acc tp =>
          tp.2.foldl (fun acc2 dw => idxAdd acc2 tp.1 dw.1 dw.2) acc)
        final)
    []

/-! ### Boolean query evaluator (`Bool_Search`, lines 277–304) -/

/-- `set(inverted_index.get(token, {}).keys())` (line 297): the DocID set
of a term's posting list. -/
def postingDocs (idx : InvIndex) (t : Term) : Finset DocID :=
  (alKeys ((alGet idx t).getD [])).toFinset

/-- The list comprehension of line 297: one DocID set per query token
that exists in the index (absent tokens are skipped). -/
def docSetsOf (idx : InvIndex) (tokens : List Term) : List (Finset DocID) :=
  (tokens.filter (fun t => alMem idx t)).map (fun t => postingDocs idx t)

/-- The core of `Bool_Search` after tokenization (lines 294–304): empty
token list or empty constraint list give the empty set, otherwise the
intersection of all constraint sets. -/
def boolSearchTokens (idx : InvIndex) (tokens : List Term) : Finset DocID :=
  if tokens = [] then ∅
  else
    match docSetsOf idx tokens with
    | [] => ∅
    | s :: rest => rest.foldl (fun a b => a ∩ b) s

/-- `Bool_Search` (lines 277–304): tokenize and normalize the query, then
intersect the posting-list DocID sets of the query terms present in the
index. -/
def Bool_Search (stem : String → String) (queries : String)
    (inverted_index : InvIndex) : Finset DocID :=
  boolSearchTokens inverted_index (tokenize_and_normalize stem queries)

/-! ### Ranked retrieval (`print_top_5_urls`, lines 307–331) -/

/-- The score of line 323:
`sum(inverted_index[token].get(doc, 0) for token in query_tokens if token in inverted_index)` —
a sum over query-token occurrences (with multiplicity). -/
def docScore (idx : InvIndex) (query_tokens : List Term) (doc : DocID) : ℚ :=
  ((query_tokens.filter (fun t => alMem idx t)).map
    (fun t => idxWeight idx t doc)).sum

/-- The `sorted(result_docs, key=..., reverse=True)` of lines 321–325: a
stable descending sort by score of the set's iteration sequence.  CPython's
`sorted` is stable; insertion sort with the ≥-by-score relation is the
same stable descending sort.  `result_docs` is the iteration sequence of
the Python set passed in — the set's enumeration order, which is an input
of the model because it is not a function of the set's contents. -/
def ranked_docs (result_docs : List DocID) (idx : InvIndex)
    (query_tokens : List Term) : List DocID :=
  result_docs.insertionSort
    (fun a b => docScore idx query_tokens b ≤ docScore idx query_tokens a)

/-- `ranked_docs[:5]` (line 327). -/
def top_docs (result_docs : List DocID) (idx : InvIndex)
    (query_tokens : List Term) : List DocID :=
  (ranked_docs result_docs idx query_tokens).take 5

/-- `print_top_5_urls` (lines 307–331): tokenize the query, rank the
boolean result set by descending score, truncate to 5, and map each DocID
through the URL table with a sentinel for misses.  The global
`doc_id_to_url` is passed in as `urls`. -/
def print_top_5_urls (result_docs : List DocID) (inverted_index : InvIndex)
    (stem : String → String) (query : String) (urls : Dict String) : List String :=
  let query_tokens := tokenize_and_normalize stem query
  (top_docs result_docs inverted_index query_tokens).map
    (fun doc_id => (alGet urls doc_id).getD "URL Not Found")

/-! ### Association-list lemmas -/

theorem alGet_cons {β : Type} (k₀ : String) (v : β) (rest : Dict β) (k : String) :
    alGet ((k₀, v) :: rest) k = if (k₀ == k) = true then some v else alGet rest k := by
  cases h : (k₀ == k) with
  | true => simp [alGet, List.find?_cons, h]
  | false => simp [alGet, List.find?_cons, h]

theorem alUpdate_cons {β : Type} (k₀ : String) (v : β) (rest : Dict β) (k : String)
    (f : Option β → β) :
    alUpdate ((k₀, v) :: rest) k f =
      if (k₀ == k) = true then (k₀, f (some v)) :: rest
      else (k₀, v) :: alUpdate rest k f := by
  cases h : (k₀ == k) with
  | true => simp [alUpdate, h]
  | false => simp [alUpdate, h]

theorem alGet_alUpdate_self {β : Type} (l : Dict β) (k : String) (f : Option β → β) :
    alGet (alUpdate l k f) k = some (f (alGet l k)) := by
  induction l with
  | nil => simp [alGet, alUpdate, List.find?_cons]
  | cons p rest ih =>
      obtain ⟨k₀, v⟩ := p
      cases h : (k₀ == k) with
      | true => simp [alUpdate_cons, alGet_cons, h]
      | false => simp [alUpdate_cons, alGet_cons, h, ih]

theorem alGet_alUpdate_ne {β : Type} (l : Dict β) (k k' : String) (f : Option β → β)
    (h : k' ≠ k) : alGet (alUpdate l k f) k' = alGet l k' := by
  have hk : (k == k') = false := beq_eq_false_iff_ne.2 (Ne.symm h)
  induction l with
  | nil => simp [alGet, alUpdate, List.find?_cons, hk]
  | cons p rest ih =>
      obtain ⟨k₀, v⟩ := p
      cases h0 : (k₀ == k) with
      | true =>
          have : (k₀ == k') = false := by
            rcases beq_iff_eq.1 h0 with rfl
            exact beq_eq_false_iff_ne.2 (fun hc => h hc.symm)
          simp [alUpdate_cons, alGet_cons, h0, this]
      | false => simp [alUpdate_cons, alGet_cons, h0, ih]

theorem alMem_iff_alGet_isSome {β : Type} (l : Dict β) (k : String) :
    alMem l k = (alGet l k).isSome := by
  simp [alMem, alGet]

theorem alMem_alUpdate {β : Type} (l : Dict β) (k k' : String) (f : Option β → β) :
    alMem (alUpdate l k f) k' = (k' == k || alMem l k') := by
  by_cases h : k' = k
  · subst h
    simp [alMem_iff_alGet_isSome, alGet_alUpdate_self]
  · simp [alMem_iff_alGet_isSome, alGet_alUpdate_ne _ _ _ _ h, h]

/-! ### Index accumulation lemmas -/

theorem plGet_plAdd_self (pl : PostingList) (d : DocID) (w : ℚ) :
    alGet (plAdd pl d w) d = some ((alGet pl d).getD 0 + w) :=
  alGet_alUpdate_self pl d _

theorem plGet_plAdd_ne (pl : PostingList) (d d' : DocID) (w : ℚ) (h : d' ≠ d) :
    alGet (plAdd pl d w) d' = alGet pl d' :=
  alGet_alUpdate_ne pl d d' _ h

theorem idxWeight_idxAdd_self (idx : InvIndex) (t : Term) (d : DocID) (w : ℚ) :
    idxWeight (idxAdd idx t d w) t d = idxWeight idx t d + w := by
  simp [idxWeight, idxAdd, alGet_alUpdate_self, plGet_plAdd_self]

theorem idxWeight_idxAdd_ne_term (idx : InvIndex) (t t' : Term) (d d' : DocID) (w : ℚ)
    (h : t' ≠ t) : idxWeight (idxAdd idx t d w) t' d' = idxWeight idx t' d' := by
  simp [idxWeight, idxAdd, alGet_alUpdate_ne _ _ _ _ h]

theorem idxWeight_idxAdd_ne_doc (idx : InvIndex) (t : Term) (d d' : DocID) (w : ℚ)
    (h : d' ≠ d) : idxWeight (idxAdd idx t d w) t d' = idxWeight idx t d' := by
  simp [idxWeight, idxAdd, alGet_alUpdate_self, plGet_plAdd_ne _ _ _ _ h]

theorem idxWeight_idxAdd_ne (idx : InvIndex) (t t' : Term) (d d' : DocID) (w : ℚ)
    (h : (t', d') ≠ (t, d)) :
    idxWeight (idxAdd idx t d w) t' d' = idxWeight idx t' d' := by
  by_cases ht : t' = t
  · subst ht
    exact idxWeight_idxAdd_ne_doc idx t' d d' w (by simpa [Prod.ext_iff] using h)
  · exact idxWeight_idxAdd_ne_term idx t t' d d' w ht

/-! ### `firstDedup` lemmas -/

theorem mem_firstDedupAux (seen l : List Term) (t : Term) :
    t ∈ firstDedupAux seen l ↔ t ∈ l ∧ t ∉ seen := by
  induction l generalizing seen with
  | nil => simp [firstDedupAux]
  | cons a rest ih =>
      by_cases h : a ∈ seen
      · rw [firstDedupAux, if_pos h, ih]
        constructor
        · rintro ⟨hm, hs⟩
          exact ⟨List.mem_cons_of_mem _ hm, hs⟩
        · rintro ⟨hm, hs⟩
          rcases List.mem_cons.1 hm with rfl | hm'
          · exact absurd h hs
          · exact ⟨hm', hs⟩
      · rw [firstDedupAux, if_neg h]
        simp only [List.mem_cons, ih (a :: seen)]
        constructor
        · rintro (rfl | ⟨hm, hs⟩)
          · exact ⟨Or.inl rfl, h⟩
          · exact ⟨Or.inr hm, fun hc => hs (Or.inr hc)⟩
        · rintro ⟨rfl | hm, hs⟩
          · exact Or.inl rfl
          · by_cases hta : t = a
            · exact Or.inl hta
            · exact Or.inr ⟨hm, by simp [hta, hs]⟩

theorem mem_firstDedup (l : List Term) (t : Term) : t ∈ firstDedup l ↔ t ∈ l := by
  simp [firstDedup, mem_firstDedupAux]

theorem nodup_firstDedupAux (seen l : List Term) : (firstDedupAux seen l).Nodup := by
  induction l generalizing seen with
  | nil => simp [firstDedupAux]
  | cons a rest ih =>
      by_cases h : a ∈ seen
      · rw [firstDedupAux, if_pos h]
        exact ih seen
      · rw [firstDedupAux, if_neg h]
        refine List.nodup_cons.2 ⟨?_, ih (a :: seen)⟩
        intro hmem
        exact ((mem_firstDedupAux _ _ _).1 hmem).2 (List.mem_cons_self a seen)

theorem nodup_firstDedup (l : List Term) : (firstDedup l).Nodup :=
  nodup_firstDedupAux [] l

/-! ### `max_tf` bounds -/

theorem le_foldr_max (l : List Nat) (x : Nat) (h : x ∈ l) : x ≤ l.foldr max 0 := by
  induction l with
  | nil => cases h
  | cons a rest ih =>
      rcases List.mem_cons.1 h with rfl | h'
      · exact Nat.le_max_left _ _
      · exact le_trans (ih h') (Nat.le_max_right _ _)

theorem term_frequency_le_max_tf (tokens : List Term) (t : Term) (h : t ∈ tokens) :
    term_frequency tokens t ≤ max_tf tokens := by
  apply le_foldr_max
  exact List.mem_map_of_mem _ ((mem_firstDedup tokens t).2 h)

theorem one_le_term_frequency (tokens : List Term) (t : Term) (h : t ∈ tokens) :
    1 ≤ term_frequency tokens t := by
  simpa [term_frequency] using List.count_pos_iff.2 h

theorem one_le_max_tf (tokens : List Term) (h : tokens ≠ []) : 1 ≤ max_tf tokens := by
  obtain ⟨t, ht⟩ := List.exists_mem_of_ne_nil tokens h
  exact le_trans (one_le_term_frequency tokens t ht) (term_frequency_le_max_tf tokens t ht)

/-! ### Building postings: what one document records -/

theorem idxWeight_foldl_idxAdd (L : List Term) (doc_id : DocID) (w : Term → ℚ)
    (idx : InvIndex) (t : Term) (d : DocID) (hnd : L.Nodup) :
    idxWeight (L.foldl (fun acc u => idxAdd acc u doc_id (w u)) idx) t d =
      idxWeight idx t d + (if t ∈ L ∧ d = doc_id then w t else 0) := by
  induction L generalizing idx with
  | nil => simp
  | cons a rest ih =>
      rcases List.nodup_cons.1 hnd with ⟨ha, hrest⟩
      simp only [List.foldl_cons]
      rw [ih _ hrest]
      by_cases hta : t = a
      · subst hta
        by_cases hd : d = doc_id
        · subst hd
          have : t ∉ rest := ha
          simp [this, idxWeight_idxAdd_self]
        · simp [hd, idxWeight_idxAdd_ne_doc _ _ _ _ _ (by exact hd)]
      · rw [idxWeight_idxAdd_ne_term _ _ _ _ _ _ hta]
        by_cases hr : t ∈ rest ∧ d = doc_id
        · simp [hr.1, hr.2, hta]
        · simp only [List.mem_cons]
          have : ¬((t = a ∨ t ∈ rest) ∧ d = doc_id) := by
            rintro ⟨h1 | h2, hd⟩
            · exact hta h1
            · exact hr ⟨h2, hd⟩
          simp [hr, this]

theorem idxWeight_build (doc_id : DocID) (tokens key_tokens : List Term)
    (idx : InvIndex) (t : Term) (d : DocID) :
    idxWeight (build_inverted_index doc_id tokens key_tokens idx) t d =
      idxWeight idx t d +
        (if t ∈ tokens ∧ d = doc_id then tfWeight tokens key_tokens t else 0) := by
  by_cases hne : tokens = []
  · subst hne
    simp [build_inverted_index]
  · rw [build_inverted_index, if_neg hne,
      idxWeight_foldl_idxAdd _ _ _ _ _ _ (nodup_firstDedup tokens)]
    simp only [mem_firstDedup]

theorem idxWeight_nil (t : Term) (d : DocID) : idxWeight [] t d = 0 := by
  simp [idxWeight, alGet]

theorem dog_scenario_weight :
    idxWeight (build_inverted_index "D2" ["dog"] ["dog"] []) "dog" "D2" = 2 := by
  have h1 : term_frequency ["dog"] "dog" = 1 := by decide
  have h2 : max_tf ["dog"] = 1 := by decide
  rw [idxWeight_build, idxWeight_nil, zero_add,
    if_pos ⟨List.mem_singleton_self "dog", rfl⟩, tfWeight, h1, h2]
  norm_num

/-- C1: for a document with a non-empty token list and a fresh `(term,
DocID)` slot, the weight recorded for each term of the document is
`0.5 + 0.5 * freq / maxFreq`, multiplied by 2 exactly once when the term
occurs among the key tokens — the boost depends only on key-membership,
never on how often the term occurs in key text — and the document with
body tokens `["dog"]` and key tokens `["dog"]` records weight `2` for
`"dog"`. -/
theorem C1_recorded_weight (doc_id : DocID) (tokens key_tokens : List Term)
    (idx : InvIndex) (t : Term) (ht : t ∈ tokens)
    (hfresh : idxWeight idx t doc_id = 0) :
    (idxWeight (build_inverted_index doc_id tokens key_tokens idx) t doc_id =
        (if t ∈ key_tokens then 2 else 1) *
          (1/2 + (1/2 * (term_frequency tokens t : ℚ)) / (max_tf tokens : ℚ))) ∧
    (∀ key_tokens' : List Term, (t ∈ key_tokens ↔ t ∈ key_tokens') →
        idxWeight (build_inverted_index doc_id tokens key_tokens idx) t doc_id =
          idxWeight (build_inverted_index doc_id tokens key_tokens' idx) t doc_id) ∧
    idxWeight (build_inverted_index "D2" ["dog"] ["dog"] []) "dog" "D2" = 2 := by
  have hmain : ∀ ks : List Term,
      idxWeight (build_inverted_index doc_id tokens ks idx) t doc_id =
        (if t ∈ ks then 2 else 1) *
          (1/2 + (1/2 * (term_frequency tokens t : ℚ)) / (max_tf tokens : ℚ)) := by
    intro ks
    rw [idxWeight_build, hfresh, zero_add, if_pos ⟨ht, rfl⟩, tfWeight]
    by_cases hk : t ∈ ks <;> simp [hk]
  refine ⟨hmain key_tokens, ?_, dog_scenario_weight⟩
  intro ks' hks
  rw [hmain key_tokens, hmain ks']
  by_cases hk : t ∈ key_tokens
  · rw [if_pos hk, if_pos (hks.1 hk)]
  · rw [if_neg hk, if_neg (fun hc => hk (hks.2 hc))]

/-- C1 witness: the spec's D2 scenario instantiates the theorem — body
tokens `["dog"]`, key tokens `["dog"]`, fresh index — and the recorded
weight is `(0.5 + 0.5 * 1/1) * 2 = 2`. -/
theorem C1_recorded_weight_witness :
    idxWeight (build_inverted_index "D2" ["dog"] ["dog"] []) "dog" "D2" =
      (if "dog" ∈ ["dog"] then 2 else 1) *
        (1/2 + (1/2 * (term_frequency ["dog"] "dog" : ℚ)) / (max_tf ["dog"] : ℚ)) :=
  (C1_recorded_weight "D2" ["dog"] ["dog"] [] "dog" (by decide) (idxWeight_nil _ _)).1

/-- C8: in a document with at least one token, every term occurring in it
gets a pre-boost weight in `[0.5, 1]`, and the sum of pre-boost weights
over the document's distinct terms is at most the number of distinct
terms. -/
theorem C8_preboost_bounds (tokens : List Term) (hne : tokens ≠ []) :
    (∀ t ∈ tokens, 1/2 ≤ tfWeight tokens [] t ∧ tfWeight tokens [] t ≤ 1) ∧
    ((firstDedup tokens).map (fun t => tfWeight tokens [] t)).sum ≤
      ((firstDedup tokens).length : ℚ) := by
  have hM : 0 < (max_tf tokens : ℚ) := by
    exact_mod_cast Nat.lt_of_lt_of_le Nat.zero_lt_one (one_le_max_tf tokens hne)
  have hbounds : ∀ t ∈ tokens, 1/2 ≤ tfWeight tokens [] t ∧ tfWeight tokens [] t ≤ 1 := by
    intro t ht
    have hf1 : (1 : ℚ) ≤ (term_frequency tokens t : ℚ) := by
      exact_mod_cast one_le_term_frequency tokens t ht
    have hfM : (term_frequency tokens t : ℚ) ≤ (max_tf tokens : ℚ) := by
      exact_mod_cast term_frequency_le_max_tf tokens t ht
    have hw : tfWeight tokens [] t =
        1/2 + (1/2 * (term_frequency tokens t : ℚ)) / (max_tf tokens : ℚ) := by
      simp [tfWeight]
    constructor
    · rw [hw]
      have : 0 ≤ (1/2 * (term_frequency tokens t : ℚ)) / (max_tf tokens : ℚ) :=
        div_nonneg (by linarith) hM.le
      linarith
    · rw [hw]
      have : (1/2 * (term_frequency tokens t : ℚ)) / (max_tf tokens : ℚ) ≤ 1/2 := by
        rw [div_le_iff₀ hM]
        linarith
      linarith
  refine ⟨hbounds, ?_⟩
  have hle : ((firstDedup tokens).map (fun t => tfWeight tokens [] t)).sum ≤
      ((firstDedup tokens).map (fun t => tfWeight tokens [] t)).length • (1 : ℚ) := by
    apply List.sum_le_card_nsmul
    intro x hx
    rcases List.mem_map.1 hx with ⟨t, ht, rfl⟩
    exact (hbounds t ((mem_firstDedup tokens t).1 ht)).2
  simpa using hle

/-- C8 witness: the spec's D1 scenario — tokens `["cat","dog","cat"]`
give pre-boost weights `1` and `0.75`, both in `[0.5, 1]`, summing to
`1.75 ≤ 2`. -/
theorem C8_preboost_bounds_witness :
    (∀ t ∈ ["cat", "dog", "cat"],
      1/2 ≤ tfWeight ["cat", "dog", "cat"] [] t ∧
        tfWeight ["cat", "dog", "cat"] [] t ≤ 1) ∧
    ((firstDedup ["cat", "dog", "cat"]).map
        (fun t => tfWeight ["cat", "dog", "cat"] [] t)).sum ≤
      ((firstDedup ["cat", "dog", "cat"]).length : ℚ) :=
  C8_preboost_bounds ["cat", "dog", "cat"] (by decide)

/-! ### Boolean search characterization -/

theorem mem_postingDocs (idx : InvIndex) (t : Term) (d : DocID) :
    d ∈ postingDocs idx t ↔ d ∈ alKeys ((alGet idx t).getD []) :=
  List.mem_toFinset

theorem mem_foldl_inter (s : Finset DocID) (l : List (Finset DocID)) (d : DocID) :
    d ∈ l.foldl (fun a b => a ∩ b) s ↔ d ∈ s ∧ ∀ x ∈ l, d ∈ x := by
  induction l generalizing s with
  | nil => simp
  | cons a rest ih =>
      simp only [List.foldl_cons, ih, Finset.mem_inter, List.mem_cons]
      constructor
      · rintro ⟨⟨hs, ha⟩, hall⟩
        refine ⟨hs, ?_⟩
        rintro x (rfl | hx)
        · exact ha
        · exact hall x hx
      · rintro ⟨hs, hall⟩
        exact ⟨⟨hs, hall a (Or.inl rfl)⟩, fun x hx => hall x (Or.inr hx)⟩

theorem boolSearchTokens_mem (idx : InvIndex) (tokens : List Term) (d : DocID) :
    d ∈ boolSearchTokens idx tokens ↔
      ((∃ t ∈ tokens, alMem idx t) ∧
        ∀ t ∈ tokens, alMem idx t → d ∈ postingDocs idx t) := by
  rw [boolSearchTokens]
  by_cases hne : tokens = []
  · subst hne
    simp
  · rw [if_neg hne]
    rcases hf : tokens.filter (fun t => alMem idx t) with _ | ⟨f, fs⟩
    · have hnp : ∀ t ∈ tokens, ¬(alMem idx t = true) := by
        intro t ht hmem
        have : t ∈ tokens.filter (fun t => alMem idx t) := List.mem_filter.2 ⟨ht, hmem⟩
        simp [hf] at this
      simp only [docSetsOf, hf, List.map_nil, Finset.not_mem_empty, false_iff]
      rintro ⟨⟨t, ht, hp⟩, _⟩
      exact hnp t ht hp
    · have hffs : ∀ t, t ∈ f :: fs ↔ t ∈ tokens ∧ alMem idx t := by
        intro t
        rw [← hf]
        simp [List.mem_filter]
      simp only [docSetsOf, hf, List.map_cons]
      rw [mem_foldl_inter]
      constructor
      · rintro ⟨hdf, hrest⟩
        have hfmem := (hffs f).1 (List.mem_cons_self _ _)
        refine ⟨⟨f, hfmem.1, hfmem.2⟩, ?_⟩
        intro t ht hp
        have : t ∈ f :: fs := (hffs t).2 ⟨ht, hp⟩
        rcases List.mem_cons.1 this with rfl | hmm
        · exact hdf
        · exact hrest _ (List.mem_map_of_mem _ hmm)
      · rintro ⟨⟨t0, ht0, hp0⟩, hall⟩
        have hfmem := (hffs f).1 (List.mem_cons_self _ _)
        refine ⟨hall f hfmem.1 hfmem.2, ?_⟩
        intro x hx
        rcases List.mem_map.1 hx with ⟨t, htm, rfl⟩
        have htm' := (hffs t).1 (List.mem_cons_of_mem _ htm)
        exact hall t htm'.1 htm'.2

/-- C2: for every query, a DocID is in the boolean result exactly when
some normalized query term is present in the index and the DocID lies in
the posting-list DocID set of every present query term: the result is the
intersection over present terms, absent terms impose no constraint, and
an empty normalized query or all-absent query gives the empty set (a
normal value — every function here is total). -/
theorem C2_bool_search_characterization (stem : String → String) (queries : String)
    (inverted_index : InvIndex) (d : DocID) :
    (d ∈ Bool_Search stem queries inverted_index ↔
      ((∃ t ∈ tokenize_and_normalize stem queries, alMem inverted_index t) ∧
        ∀ t ∈ tokenize_and_normalize stem queries,
          alMem inverted_index t → d ∈ postingDocs inverted_index t)) ∧
    (tokenize_and_normalize stem queries = [] →
      Bool_Search stem queries inverted_index = ∅) ∧
    ((∀ t ∈ tokenize_and_normalize stem queries, ¬ alMem inverted_index t) →
      Bool_Search stem queries inverted_index = ∅) := by
  refine ⟨boolSearchTokens_mem _ _ _, ?_, ?_⟩
  · intro h
    rw [Bool_Search, h, boolSearchTokens]
    simp
  · intro h
    apply Finset.eq_empty_of_forall_not_mem
    intro x hx
    rcases (boolSearchTokens_mem _ _ _).1 hx with ⟨⟨t, ht, hp⟩, _⟩
    exact h t ht hp

/-- C2 witness: over the index `{"cat": {"D1": 1}}`, the query
`"zzz cat"` (one absent and one present term) contains `"D1"`, and the
all-absent query `"zzz"` returns the empty set. -/
theorem C2_bool_search_characterization_witness :
    "D1" ∈ Bool_Search id "zzz cat" [("cat", [("D1", 1)])] ∧
      Bool_Search id "zzz" [("cat", [("D1", 1)])] = ∅ := by
  constructor
  · refine (C2_bool_search_characterization id "zzz cat" [("cat", [("D1", 1)])] "D1").1.2 ?_
    have htok : tokenize_and_normalize id "zzz cat" = ["zzz", "cat"] := rfl
    rw [htok]
    refine ⟨⟨"cat", by decide, by decide⟩, ?_⟩
    intro t ht hp
    rcases List.mem_cons.1 ht with rfl | ht'
    · exact absurd hp (by decide)
    · rcases List.mem_cons.1 ht' with rfl | ht''
      · rw [mem_postingDocs]
        decide
      · simp at ht''
  · refine (C2_bool_search_characterization id "zzz" [("cat", [("D1", 1)])] "D1").2.2 ?_
    have htok : tokenize_and_normalize id "zzz" = ["zzz"] := rfl
    rw [htok]
    intro t ht
    rcases List.mem_cons.1 ht with rfl | ht'
    · decide
    · simp at ht'

/-! ### C9: monotonicity of boolean search fails for all-absent queries -/

/-- C9 counterexample: over the index `{"cat": {"D1": 1}}` the query
`"zzz"` (whose only term is absent from the index) returns the empty set,
but the extended query `"zzz cat"` returns `{"D1"}` — adding a term grew
the result set, so boolean search is not monotonic in the query. -/
theorem C9_counterexample :
    ¬ (Bool_Search id "zzz cat" [("cat", [("D1", 1)])] ⊆
        Bool_Search id "zzz" [("cat", [("D1", 1)])]) := by
  intro hsub
  have h1 : "D1" ∈ Bool_Search id "zzz cat" [("cat", [("D1", 1)])] := by
    rw [Bool_Search, show tokenize_and_normalize id "zzz cat" = ["zzz", "cat"] from rfl,
      boolSearchTokens_mem]
    refine ⟨⟨"cat", by decide, by decide⟩, ?_⟩
    intro t ht hp
    rcases List.mem_cons.1 ht with rfl | ht'
    · exact absurd hp (by decide)
    · rcases List.mem_cons.1 ht' with rfl | ht''
      · rw [mem_postingDocs]
        decide
      · simp at ht''
  have h2 : "D1" ∉ Bool_Search id "zzz" [("cat", [("D1", 1)])] := by
    rw [Bool_Search, show tokenize_and_normalize id "zzz" = ["zzz"] from rfl,
      boolSearchTokens_mem]
    rintro ⟨⟨t, ht, hp⟩, -⟩
    rcases List.mem_cons.1 ht with rfl | ht'
    · exact absurd hp (by decide)
    · simp at ht'
  exact h2 (hsub h1)

/-- C9 amended: boolean search is monotonic in the query whenever at
least one of the original query's normalized terms is present in the
index: appending one further term to the normalized term list shrinks or
preserves the result set (and an absent added term leaves it unchanged);
when no original term is present the original result is empty and adding
a present term can strictly grow it. -/
theorem C9_monotonic_when_term_present (idx : InvIndex) (ts : List Term) (t : Term)
    (h : ∃ u ∈ ts, alMem idx u) :
    boolSearchTokens idx (ts ++ [t]) ⊆ boolSearchTokens idx ts ∧
      (¬ alMem idx t → boolSearchTokens idx (ts ++ [t]) = boolSearchTokens idx ts) := by
  constructor
  · intro d hd
    rcases (boolSearchTokens_mem _ _ _).1 hd with ⟨_, hall⟩
    exact (boolSearchTokens_mem _ _ _).2
      ⟨h, fun u hu hp => hall u (List.mem_append_left _ hu) hp⟩
  · intro habs
    apply Finset.ext
    intro d
    rw [boolSearchTokens_mem, boolSearchTokens_mem]
    constructor
    · rintro ⟨-, hall⟩
      exact ⟨h, fun u hu hp => hall u (List.mem_append_left _ hu) hp⟩
    · rintro ⟨-, hall⟩
      refine ⟨⟨?_, ?_⟩, ?_⟩
      · exact h.choose
      · rcases h.choose_spec with ⟨hu, hp⟩
        exact ⟨List.mem_append_left _ hu, hp⟩
      · intro u hu hp
        rcases List.mem_append.1 hu with hu' | hu'
        · exact hall u hu' hp
        · rcases List.mem_singleton.1 hu' with rfl
          exact absurd hp habs

/-- C9 amended witness: over `{"cat": {"D1": 1}}` with original term list
`["cat"]` (present), appending `"zzz"` keeps the result a subset — and
since `"zzz"` is absent, the result is unchanged. -/
theorem C9_monotonic_when_term_present_witness :
    boolSearchTokens [("cat", [("D1", (1 : ℚ))])] (["cat"] ++ ["zzz"]) ⊆
        boolSearchTokens [("cat", [("D1", (1 : ℚ))])] ["cat"] ∧
      boolSearchTokens [("cat", [("D1", (1 : ℚ))])] (["cat"] ++ ["zzz"]) =
        boolSearchTokens [("cat", [("D1", (1 : ℚ))])] ["cat"] := by
  have h := C9_monotonic_when_term_present [("cat", [("D1", (1 : ℚ))])] ["cat"] "zzz"
    ⟨"cat", by decide, by decide⟩
  exact ⟨h.1, h.2 (by decide)⟩

/-! ### Merge: additive accumulation over segments -/

/-- A well-formed index, as every Python dict-of-dicts is: term keys are
pairwise distinct, and so are the DocID keys of each posting list. -/
def IndexWF (idx : InvIndex) : Prop :=
  (alKeys idx).Nodup ∧ ∀ tp ∈ idx, (alKeys tp.2).Nodup

/-- The postings of one term as `(term, doc, weight)` triples. -/
def plTriples (t : Term) (pl : PostingList) : List (Term × DocID × ℚ) :=
  pl.map (fun dw => (t, dw.1, dw.2))

/-- All postings of a segment as triples, in iteration order. -/
def segTriples (seg : InvIndex) : List (Term × DocID × ℚ) :=
  (seg.map (fun tp => plTriples tp.1 tp.2)).flatten

/-- Accumulate a list of `(term, doc, weight)` triples into an index. -/
def addTriples (fi : InvIndex) (l : List (Term × DocID × ℚ)) : InvIndex :=
  l.foldl (fun acc x => idxAdd acc x.1 x.2.1 x.2.2) fi

theorem addTriples_append (fi : InvIndex) (l1 l2 : List (Term × DocID × ℚ)) :
    addTriples fi (l1 ++ l2) = addTriples (addTriples fi l1) l2 :=
  List.foldl_append _ _ _ _

/-- One step of the merge loop (lines 267–269) is accumulation of the
segment's triples. -/
theorem mergeOne_eq_addTriples (fi : InvIndex) (seg : InvIndex) :
    seg.foldl
      (fun acc tp => tp.2.foldl (fun acc2 dw => idxAdd acc2 tp.1 dw.1 dw.2) acc)
      fi = addTriples fi (segTriples seg) := by
  induction seg generalizing fi with
  | nil => simp [segTriples, addTriples]
  | cons tp rest ih =>
      rw [List.foldl_cons, ih]
      have h1 : segTriples (tp :: rest) = plTriples tp.1 tp.2 ++ segTriples rest := by
        simp [segTriples]
      rw [h1, addTriples_append]
      congr 1
      rw [addTriples, plTriples, List.foldl_map]

theorem merge_eq_addTriples (partial_files : List InvIndex) (fi : InvIndex) :
    partial_files.foldl
      (fun final partial_index =>
        partial_index.foldl
          (fun acc tp => tp.2.foldl (fun acc2 dw => idxAdd acc2 tp.1 dw.1 dw.2) acc)
          final)
      fi = addTriples fi (partial_files.map segTriples).flatten := by
  induction partial_files generalizing fi with
  | nil => simp [addTriples]
  | cons seg rest ih =>
      have h1 : ((seg :: rest).map segTriples).flatten =
          segTriples seg ++ (rest.map segTriples).flatten := by simp
      rw [List.foldl_cons, mergeOne_eq_addTriples, ih, h1, addTriples_append]

/-- The weight a triple list contributes to `(t, d)`. -/
def triplesWeight (l : List (Term × DocID × ℚ)) (t : Term) (d : DocID) : ℚ :=
  ((l.filter (fun x => x.1 = t ∧ x.2.1 = d)).map (fun x => x.2.2)).sum

theorem triplesWeight_append (l1 l2 : List (Term × DocID × ℚ)) (t : Term) (d : DocID) :
    triplesWeight (l1 ++ l2) t d = triplesWeight l1 t d + triplesWeight l2 t d := by
  simp [triplesWeight, List.filter_append]

theorem idxWeight_addTriples (fi : InvIndex) (l : List (Term × DocID × ℚ))
    (t : Term) (d : DocID) :
    idxWeight (addTriples fi l) t d = idxWeight fi t d + triplesWeight l t d := by
  induction l generalizing fi with
  | nil => simp [addTriples, triplesWeight]
  | cons x rest ih =>
      rw [addTriples, List.foldl_cons, ← addTriples, ih]
      by_cases hx : x.1 = t ∧ x.2.1 = d
      · rw [show idxAdd fi x.1 x.2.1 x.2.2 = idxAdd fi t d x.2.2 by rw [hx.1, hx.2],
          idxWeight_idxAdd_self]
        have : triplesWeight (x :: rest) t d = x.2.2 + triplesWeight rest t d := by
          simp [triplesWeight, hx.1, hx.2]
        rw [this]
        ring
      · have hne : (t, d) ≠ (x.1, x.2.1) := by
          intro hc
          exact hx ⟨(Prod.ext_iff.1 hc).1.symm, (Prod.ext_iff.1 hc).2.symm⟩
        rw [idxWeight_idxAdd_ne _ _ _ _ _ _ hne]
        have : triplesWeight (x :: rest) t d = triplesWeight rest t d := by
          have : ¬(x.1 = t ∧ x.2.1 = d) := hx
          simp [triplesWeight, List.filter_cons, this]
        rw [this]

theorem alGet_eq_none_of_not_mem_keys {β : Type} (l : Dict β) (k : String)
    (h : k ∉ alKeys l) : alGet l k = none := by
  induction l with
  | nil => simp [alGet]
  | cons p rest ih =>
      obtain ⟨k₀, v⟩ := p
      rw [alGet_cons]
      have hk : k₀ ≠ k := by
        intro hc
        exact h (by simp [alKeys, hc])
      rw [if_neg (by simpa using hk)]
      exact ih (fun hc => h (by simp [alKeys] at hc ⊢; exact Or.inr hc))

theorem pl_filter_sum (pl : PostingList) (d : DocID) (hnd : (alKeys pl).Nodup) :
    ((pl.filter (fun dw => dw.1 = d)).map (fun dw => dw.2)).sum =
      (alGet pl d).getD 0 := by
  induction pl with
  | nil => simp [alGet]
  | cons dw rest ih =>
      obtain ⟨d₀, w⟩ := dw
      rcases List.nodup_cons.1 (show (d₀ :: alKeys rest).Nodup from hnd) with
        ⟨hnotin, hrest⟩
      by_cases hd : d₀ = d
      · subst hd
        have hfe : rest.filter (fun dw => dw.1 = d₀) = [] := by
          rw [List.filter_eq_nil_iff]
          intro dw hdw
          intro hc
          exact hnotin (by
            simp only [alKeys, List.mem_map]
            exact ⟨dw, hdw, by simpa using hc⟩)
        simp [List.filter_cons, hfe, alGet_cons]
      · simp only [List.filter_cons]
        rw [if_neg (by simpa using hd)]
        rw [alGet_cons, if_neg (by simpa using hd)]
        exact ih hrest

theorem plTriples_filter (t' t : Term) (pl : PostingList) (d : DocID) :
    triplesWeight (plTriples t' pl) t d =
      if t' = t then ((pl.filter (fun dw => dw.1 = d)).map (fun dw => dw.2)).sum
      else 0 := by
  by_cases ht : t' = t
  · subst ht
    rw [if_pos rfl]
    simp only [triplesWeight, plTriples, List.filter_map]
    rw [List.map_map]
    congr 1
    simp [Function.comp_def]
  · rw [if_neg ht]
    simp only [triplesWeight, plTriples, List.filter_map]
    have : (pl.filter ((fun x => decide (x.1 = t ∧ x.2.1 = d)) ∘
        (fun dw => (t', dw.1, dw.2)))) = [] := by
      rw [List.filter_eq_nil_iff]
      intro dw _
      simp [ht]
    rw [this]
    simp

/-- For a well-formed segment, its triples contribute to `(t, d)` exactly
the weight the segment itself records there. -/
theorem triplesWeight_segTriples (seg : InvIndex) (hwf : IndexWF seg)
    (t : Term) (d : DocID) :
    triplesWeight (segTriples seg) t d = idxWeight seg t d := by
  induction seg with
  | nil => simp [segTriples, triplesWeight, idxWeight, alGet]
  | cons tp rest ih =>
      obtain ⟨t₀, pl⟩ := tp
      rcases hwf with ⟨hkeys, hinner⟩
      rcases List.nodup_cons.1 (show (t₀ :: alKeys rest).Nodup from hkeys) with
        ⟨hnotin, hkrest⟩
      have hwfrest : IndexWF rest :=
        ⟨hkrest, fun tp htp => hinner tp (List.mem_cons_of_mem _ htp)⟩
      have hsplit : segTriples ((t₀, pl) :: rest) =
          plTriples t₀ pl ++ segTriples rest := by
        simp [segTriples]
      rw [hsplit, triplesWeight_append, plTriples_filter, ih hwfrest]
      by_cases ht : t₀ = t
      · subst ht
        rw [if_pos rfl]
        have hrest0 : idxWeight rest t₀ d = 0 := by
          have hnone : alGet rest t₀ = none := by
            apply alGet_eq_none_of_not_mem_keys
            simpa [alKeys] using hnotin
          simp only [idxWeight, hnone]
          simp [alGet]
        have hsum := pl_filter_sum pl d
          (by
            have := hinner (t₀, pl) (List.mem_cons_self _ _)
            simpa using this)
        rw [hsum, hrest0, add_zero]
        simp [idxWeight, alGet_cons]
      · rw [if_neg ht, zero_add]
        simp only [idxWeight]
        rw [alGet_cons, if_neg (by simpa using ht)]

/-- The final weight of every pair under `merge_partial_indexes` is the
sum over segments. -/
theorem idxWeight_merge (partial_files : List InvIndex)
    (hwf : ∀ seg ∈ partial_files, IndexWF seg) (t : Term) (d : DocID) :
    idxWeight (merge_partial_indexes partial_files) t d =
      (partial_files.map (fun seg => idxWeight seg t d)).sum := by
  rw [merge_partial_indexes, merge_eq_addTriples, idxWeight_addTriples]
  rw [show idxWeight [] t d = 0 by simp [idxWeight, alGet], zero_add]
  induction partial_files with
  | nil => simp [triplesWeight]
  | cons seg rest ih =>
      have h1 : ((seg :: rest).map segTriples).flatten =
          segTriples seg ++ (rest.map segTriples).flatten := by simp
      rw [h1, triplesWeight_append, List.map_cons, List.sum_cons,
        triplesWeight_segTriples seg (hwf seg (List.mem_cons_self _ _)),
        ih (fun s hs => hwf s (List.mem_cons_of_mem _ hs))]

/-! ### Merge: membership and order-independence -/

theorem alMem_idxAdd (idx : InvIndex) (t : Term) (d : DocID) (w : ℚ) (t' : Term) :
    alMem (idxAdd idx t d w) t' = (t' == t || alMem idx t') :=
  alMem_alUpdate idx t t' _

theorem idxPairMem_idxAdd (idx : InvIndex) (t : Term) (d : DocID) (w : ℚ)
    (t' : Term) (d' : DocID) :
    idxPairMem (idxAdd idx t d w) t' d' =
      ((t' == t && d' == d) || idxPairMem idx t' d') := by
  by_cases ht : t' = t
  · subst ht
    simp only [idxPairMem, idxAdd, alGet_alUpdate_self, Option.getD_some, plAdd,
      alMem_alUpdate, beq_self_eq_true, Bool.true_and]
  · have hb : (t' == t) = false := beq_eq_false_iff_ne.2 ht
    simp only [idxPairMem, idxAdd, alGet_alUpdate_ne _ _ _ _ ht, hb, Bool.false_and,
      Bool.false_or]

theorem alMem_addTriples (fi : InvIndex) (l : List (Term × DocID × ℚ)) (t : Term) :
    alMem (addTriples fi l) t ↔ (alMem fi t ∨ ∃ x ∈ l, x.1 = t) := by
  induction l generalizing fi with
  | nil => simp [addTriples]
  | cons x rest ih =>
      rw [addTriples, List.foldl_cons, ← addTriples, ih, alMem_idxAdd]
      simp only [Bool.or_eq_true, beq_iff_eq, List.mem_cons]
      constructor
      · rintro ((rfl | hfi) | ⟨y, hy, rfl⟩)
        · exact Or.inr ⟨x, Or.inl rfl, rfl⟩
        · exact Or.inl hfi
        · exact Or.inr ⟨y, Or.inr hy, rfl⟩
      · rintro (hfi | ⟨y, (rfl | hy), rfl⟩)
        · exact Or.inl (Or.inr hfi)
        · exact Or.inl (Or.inl rfl)
        · exact Or.inr ⟨y, hy, rfl⟩

theorem idxPairMem_addTriples (fi : InvIndex) (l : List (Term × DocID × ℚ))
    (t : Term) (d : DocID) :
    idxPairMem (addTriples fi l) t d ↔
      (idxPairMem fi t d ∨ ∃ x ∈ l, x.1 = t ∧ x.2.1 = d) := by
  induction l generalizing fi with
  | nil => simp [addTriples]
  | cons x rest ih =>
      rw [addTriples, List.foldl_cons, ← addTriples, ih, idxPairMem_idxAdd]
      simp only [Bool.or_eq_true, Bool.and_eq_true, beq_iff_eq, List.mem_cons]
      constructor
      · rintro ((⟨rfl, rfl⟩ | hfi) | ⟨y, hy, hyt, hyd⟩)
        · exact Or.inr ⟨x, Or.inl rfl, rfl, rfl⟩
        · exact Or.inl hfi
        · exact Or.inr ⟨y, Or.inr hy, hyt, hyd⟩
      · rintro (hfi | ⟨y, (rfl | hy), hyt, hyd⟩)
        · exact Or.inl (Or.inr hfi)
        · exact Or.inl (Or.inl ⟨hyt.symm, hyd.symm⟩)
        · exact Or.inr ⟨y, hy, hyt, hyd⟩

theorem alMem_nil (t : Term) : alMem ([] : InvIndex) t = false := rfl

theorem idxPairMem_nil (t : Term) (d : DocID) :
    idxPairMem ([] : InvIndex) t d = false := rfl

theorem alMem_merge (l : List InvIndex) (t : Term) :
    alMem (merge_partial_indexes l) t ↔
      ∃ seg ∈ l, ∃ x ∈ segTriples seg, x.1 = t := by
  rw [merge_partial_indexes, merge_eq_addTriples, alMem_addTriples]
  simp only [alMem_nil, Bool.false_eq_true, false_or, List.mem_flatten, List.mem_map]
  constructor
  · rintro ⟨x, ⟨L, ⟨seg, hseg, rfl⟩, hxL⟩, rfl⟩
    exact ⟨seg, hseg, x, hxL, rfl⟩
  · rintro ⟨seg, hseg, x, hx, rfl⟩
    exact ⟨x, ⟨segTriples seg, ⟨seg, hseg, rfl⟩, hx⟩, rfl⟩

theorem idxPairMem_merge (l : List InvIndex) (t : Term) (d : DocID) :
    idxPairMem (merge_partial_indexes l) t d ↔
      ∃ seg ∈ l, ∃ x ∈ segTriples seg, x.1 = t ∧ x.2.1 = d := by
  rw [merge_partial_indexes, merge_eq_addTriples, idxPairMem_addTriples]
  simp only [idxPairMem_nil, Bool.false_eq_true, false_or, List.mem_flatten, List.mem_map]
  constructor
  · rintro ⟨x, ⟨L, ⟨seg, hseg, rfl⟩, hxL⟩, hx⟩
    exact ⟨seg, hseg, x, hxL, hx⟩
  · rintro ⟨seg, hseg, x, hx, hx'⟩
    exact ⟨x, ⟨segTriples seg, ⟨seg, hseg, rfl⟩, hx⟩, hx'⟩

/-- Extensional equality of indexes: Python's `dict` equality `==` for a
dict-of-dicts — same term keys, same `(term, DocID)` key pairs, and the
same weight at every pair. -/
def indexEquiv (i1 i2 : InvIndex) : Prop :=
  (∀ t, alMem i1 t ↔ alMem i2 t) ∧
    (∀ t d, idxPairMem i1 t d ↔ idxPairMem i2 t d) ∧
    (∀ t d, idxWeight i1 t d = idxWeight i2 t d)

/-- C3: merging is pure additive accumulation — for well-formed segments
(every Python dict is), each `(term, DocID)` weight of the final index is
the sum of that pair's weights over all segments (absent pairs reading as
0), merging `[A, B]` and `[B, A]` produce extensionally identical final
indexes, and two segments each holding `("cat", "D1", 1)` merge to weight
`2`. -/
theorem C3_merge_additive (partial_files : List InvIndex)
    (hwf : ∀ seg ∈ partial_files, IndexWF seg) (A B : InvIndex)
    (hA : IndexWF A) (hB : IndexWF B) :
    (∀ t d, idxWeight (merge_partial_indexes partial_files) t d =
        (partial_files.map (fun seg => idxWeight seg t d)).sum) ∧
    indexEquiv (merge_partial_indexes [A, B]) (merge_partial_indexes [B, A]) ∧
    idxWeight (merge_partial_indexes
        [[("cat", [("D1", (1 : ℚ))])], [("cat", [("D1", (1 : ℚ))])]]) "cat" "D1" = 2 := by
  have hcat : IndexWF [("cat", [("D1", (1 : ℚ))])] := by
    constructor
    · simp [alKeys]
    · intro tp htp
      rcases List.mem_singleton.1 htp with rfl
      simp [alKeys]
  refine ⟨fun t d => idxWeight_merge partial_files hwf t d, ⟨?_, ?_, ?_⟩, ?_⟩
  · intro t
    rw [alMem_merge, alMem_merge]
    constructor
    · rintro ⟨seg, hseg, hx⟩
      rcases List.mem_cons.1 hseg with rfl | hseg'
      · exact ⟨seg, by simp, hx⟩
      · rcases List.mem_singleton.1 hseg' with rfl
        exact ⟨seg, by simp, hx⟩
    · rintro ⟨seg, hseg, hx⟩
      rcases List.mem_cons.1 hseg with rfl | hseg'
      · exact ⟨seg, by simp, hx⟩
      · rcases List.mem_singleton.1 hseg' with rfl
        exact ⟨seg, by simp, hx⟩
  · intro t d
    rw [idxPairMem_merge, idxPairMem_merge]
    constructor
    · rintro ⟨seg, hseg, hx⟩
      rcases List.mem_cons.1 hseg with rfl | hseg'
      · exact ⟨seg, by simp, hx⟩
      · rcases List.mem_singleton.1 hseg' with rfl
        exact ⟨seg, by simp, hx⟩
    · rintro ⟨seg, hseg, hx⟩
      rcases List.mem_cons.1 hseg with rfl | hseg'
      · exact ⟨seg, by simp, hx⟩
      · rcases List.mem_singleton.1 hseg' with rfl
        exact ⟨seg, by simp, hx⟩
  · intro t d
    rw [idxWeight_merge [A, B] (by
        intro seg hseg
        rcases List.mem_cons.1 hseg with rfl | hseg'
        · exact hA
        · rcases List.mem_singleton.1 hseg' with rfl
          exact hB),
      idxWeight_merge [B, A] (by
        intro seg hseg
        rcases List.mem_cons.1 hseg with rfl | hseg'
        · exact hB
        · rcases List.mem_singleton.1 hseg' with rfl
          exact hA)]
    simp [add_comm]
  · rw [idxWeight_merge _ (by
      intro seg hseg
      rcases List.mem_cons.1 hseg with rfl | hseg'
      · exact hcat
      · rcases List.mem_singleton.1 hseg' with rfl
        exact hcat)]
    have hone : idxWeight [("cat", [("D1", (1 : ℚ))])] "cat" "D1" = 1 := by
      simp [idxWeight, alGet_cons]
    rw [List.map_cons, List.map_cons, List.map_nil, hone, List.sum_cons,
      List.sum_cons, List.sum_nil]
    norm_num

/-- C3 witness: the spec's scenario — two segments each holding
`("cat", "D1", 1)` merge to weight `2` — via the theorem applied at those
segments. -/
theorem C3_merge_additive_witness :
    idxWeight (merge_partial_indexes
        [[("cat", [("D1", (1 : ℚ))])], [("cat", [("D1", (1 : ℚ))])]]) "cat" "D1" = 2 := by
  have hcat : IndexWF [("cat", [("D1", (1 : ℚ))])] := by
    constructor
    · simp [alKeys]
    · intro tp htp
      rcases List.mem_singleton.1 htp with rfl
      simp [alKeys]
  exact (C3_merge_additive [] (by simp) [("cat", [("D1", (1 : ℚ))])]
    [("cat", [("D1", (1 : ℚ))])] hcat hcat).2.2

/-! ### Ranked retrieval: permutation, sortedness, truncation -/

theorem ranked_docs_perm (result_docs : List DocID) (idx : InvIndex)
    (query_tokens : List Term) :
    List.Perm (ranked_docs result_docs idx query_tokens) result_docs :=
  List.perm_insertionSort _ _

theorem ranked_docs_sorted (result_docs : List DocID) (idx : InvIndex)
    (query_tokens : List Term) :
    (ranked_docs result_docs idx query_tokens).Sorted
      (fun a b => docScore idx query_tokens b ≤ docScore idx query_tokens a) := by
  letI : IsTotal DocID
      (fun a b => docScore idx query_tokens b ≤ docScore idx query_tokens a) :=
    ⟨fun a b => le_total _ _⟩
  letI : IsTrans DocID
      (fun a b => docScore idx query_tokens b ≤ docScore idx query_tokens a) :=
    ⟨fun _ _ _ h1 h2 => le_trans h2 h1⟩
  exact List.sorted_insertionSort _ _

theorem top_docs_sorted (result_docs : List DocID) (idx : InvIndex)
    (query_tokens : List Term) :
    (top_docs result_docs idx query_tokens).Sorted
      (fun a b => docScore idx query_tokens b ≤ docScore idx query_tokens a) :=
  (ranked_docs_sorted result_docs idx query_tokens).sublist (List.take_sublist _ _)

theorem top_docs_subset (result_docs : List DocID) (idx : InvIndex)
    (query_tokens : List Term) (d : DocID)
    (hd : d ∈ top_docs result_docs idx query_tokens) : d ∈ result_docs :=
  (ranked_docs_perm result_docs idx query_tokens).mem_iff.1
    (List.mem_of_mem_take hd)

/-- C4: ranked retrieval returns at most five entries; every ranked DocID
is a member of the boolean result set; and the ranked DocIDs are in
non-increasing score order, the score being the sum over the query's
present normalized terms of the pair's weight (0 when absent, via
`Dict.get`-with-default). -/
theorem C4_top5_contract (result_docs : List DocID) (inverted_index : InvIndex)
    (stem : String → String) (query : String) (urls : Dict String)
    (hres : result_docs.toFinset = Bool_Search stem query inverted_index) :
    (print_top_5_urls result_docs inverted_index stem query urls).length ≤ 5 ∧
    (∀ d ∈ top_docs result_docs inverted_index (tokenize_and_normalize stem query),
        d ∈ Bool_Search stem query inverted_index) ∧
    (top_docs result_docs inverted_index (tokenize_and_normalize stem query)).Sorted
      (fun a b => docScore inverted_index (tokenize_and_normalize stem query) b ≤
        docScore inverted_index (tokenize_and_normalize stem query) a) := by
  refine ⟨?_, ?_, top_docs_sorted _ _ _⟩
  · rw [print_top_5_urls, List.length_map, top_docs, List.length_take]
    exact min_le_left _ _
  · intro d hd
    rw [← hres, List.mem_toFinset]
    exact top_docs_subset _ _ _ _ hd

/-- C4 witness: over the index `{"cat": {"D1": 1}}` with boolean result
enumeration `["D1"]` for the query `"cat"`, the contract holds. -/
theorem C4_top5_contract_witness :
    (print_top_5_urls ["D1"] [("cat", [("D1", (1 : ℚ))])] id "cat"
        [("D1", "u1")]).length ≤ 5 ∧
    (∀ d ∈ top_docs ["D1"] [("cat", [("D1", (1 : ℚ))])]
        (tokenize_and_normalize id "cat"),
        d ∈ Bool_Search id "cat" [("cat", [("D1", (1 : ℚ))])]) ∧
    (top_docs ["D1"] [("cat", [("D1", (1 : ℚ))])]
        (tokenize_and_normalize id "cat")).Sorted
      (fun a b => docScore [("cat", [("D1", (1 : ℚ))])]
          (tokenize_and_normalize id "cat") b ≤
        docScore [("cat", [("D1", (1 : ℚ))])]
          (tokenize_and_normalize id "cat") a) := by
  apply C4_top5_contract
  apply Finset.ext
  intro x
  rw [Bool_Search, show tokenize_and_normalize id "cat" = ["cat"] from rfl,
    boolSearchTokens_mem]
  simp only [List.mem_toFinset, List.mem_singleton]
  constructor
  · rintro rfl
    refine ⟨⟨"cat", rfl, by decide⟩, ?_⟩
    intro t ht _
    rcases ht with rfl
    rw [mem_postingDocs]
    decide
  · rintro ⟨-, hall⟩
    have := hall "cat" rfl (by decide)
    rw [mem_postingDocs] at this
    have hkeys : alKeys ((alGet [("cat", [("D1", (1 : ℚ))])] "cat").getD []) =
        ["D1"] := rfl
    rw [hkeys] at this
    exact List.mem_singleton.1 this

/-! ### C6: determinism of ranking and Python set iteration order -/

theorem eq_of_perm_of_sorted_of_inj (f : DocID → ℚ) (l1 : List DocID) :
    ∀ l2 : List DocID, List.Perm l1 l2 →
      l1.Sorted (fun a b => f b ≤ f a) → l2.Sorted (fun a b => f b ≤ f a) →
      (∀ a ∈ l1, ∀ b ∈ l1, f a = f b → a = b) → l1 = l2 := by
  induction l1 with
  | nil =>
      intro l2 h _ _ _
      exact h.nil_eq
  | cons a t1 ih =>
      intro l2 h s1 s2 hinj
      cases l2 with
      | nil => exact absurd h.symm.nil_eq (by simp)
      | cons b t2 =>
          have hbIn : b ∈ a :: t1 := h.mem_iff.2 (List.mem_cons_self _ _)
          have haIn : a ∈ b :: t2 := h.mem_iff.1 (List.mem_cons_self _ _)
          have h1 : f b ≤ f a := by
            rcases List.mem_cons.1 hbIn with rfl | hb
            · exact le_refl _
            · exact (List.pairwise_cons.1 s1).1 b hb
          have h2 : f a ≤ f b := by
            rcases List.mem_cons.1 haIn with rfl | ha2
            · exact le_refl _
            · exact (List.pairwise_cons.1 s2).1 a ha2
          have hab : a = b :=
            hinj a (List.mem_cons_self _ _) b hbIn (le_antisymm h2 h1)
          subst hab
          have ht : List.Perm t1 t2 := List.Perm.cons_inv h
          rw [ih t2 ht (List.pairwise_cons.1 s1).2 (List.pairwise_cons.1 s2).2
            (fun x hx y hy hxy =>
              hinj x (List.mem_cons_of_mem _ hx) y (List.mem_cons_of_mem _ hy) hxy)]

/-- C6 counterexample: with index `{"cat": {"D1": 1, "D2": 1}}` and query
`"cat"`, the boolean result set `{"D1", "D2"}` presented in its two
possible iteration orders yields two different ranked outputs (`["u1",
"u2"]` vs `["u2", "u1"]`): with tied scores the output is decided by the
Python set's iteration order, which is not a function of the set's
mathematical contents, so ranked retrieval as implemented is not a
function of (index, result set, URL table, query) alone. -/
theorem C6_counterexample :
    (["D1", "D2"] : List DocID).toFinset = (["D2", "D1"] : List DocID).toFinset ∧
    print_top_5_urls ["D1", "D2"] [("cat", [("D1", (1 : ℚ)), ("D2", (1 : ℚ))])]
        id "cat" [("D1", "u1"), ("D2", "u2")] ≠
      print_top_5_urls ["D2", "D1"] [("cat", [("D1", (1 : ℚ)), ("D2", (1 : ℚ))])]
        id "cat" [("D1", "u1"), ("D2", "u2")] := by
  constructor
  · apply Finset.ext
    intro x
    simp [or_comm]
  · have hs1 : docScore [("cat", [("D1", (1 : ℚ)), ("D2", (1 : ℚ))])] ["cat"] "D1" = 1 := by
      rw [docScore,
        show (["cat"].filter
          (fun t => alMem [("cat", [("D1", (1 : ℚ)), ("D2", (1 : ℚ))])] t)) = ["cat"]
          from rfl,
        show (["cat"].map
          (fun t => idxWeight [("cat", [("D1", (1 : ℚ)), ("D2", (1 : ℚ))])] t "D1")) =
          [1] from rfl]
      simp
    have hs2 : docScore [("cat", [("D1", (1 : ℚ)), ("D2", (1 : ℚ))])] ["cat"] "D2" = 1 := by
      rw [docScore,
        show (["cat"].filter
          (fun t => alMem [("cat", [("D1", (1 : ℚ)), ("D2", (1 : ℚ))])] t)) = ["cat"]
          from rfl,
        show (["cat"].map
          (fun t => idxWeight [("cat", [("D1", (1 : ℚ)), ("D2", (1 : ℚ))])] t "D2")) =
          [1] from rfl]
      simp
    have htok : tokenize_and_normalize id "cat" = ["cat"] := rfl
    have hr1 : ranked_docs ["D1", "D2"]
        [("cat", [("D1", (1 : ℚ)), ("D2", (1 : ℚ))])] ["cat"] = ["D1", "D2"] := by
      rw [ranked_docs]
      simp [List.insertionSort, List.orderedInsert, hs1, hs2]
    have hr2 : ranked_docs ["D2", "D1"]
        [("cat", [("D1", (1 : ℚ)), ("D2", (1 : ℚ))])] ["cat"] = ["D2", "D1"] := by
      rw [ranked_docs]
      simp [List.insertionSort, List.orderedInsert, hs1, hs2]
    rw [print_top_5_urls, print_top_5_urls, htok, top_docs, top_docs, hr1, hr2]
    decide

/-- C6 amended: ranked retrieval is deterministic only as a function of
the index, the URL table, the query, and the iteration order of the
boolean result set (the stable sort preserves that order among equal
scores); when no two members of the result set have equal scores, the
output is the same for every iteration order of the set, i.e. a function
of the mathematical inputs alone. -/
theorem C6_deterministic_without_ties (result_docs result_docs' : List DocID)
    (inverted_index : InvIndex) (stem : String → String) (query : String)
    (urls : Dict String)
    (hperm : List.Perm result_docs result_docs')
    (hinj : ∀ a ∈ result_docs, ∀ b ∈ result_docs,
      docScore inverted_index (tokenize_and_normalize stem query) a =
        docScore inverted_index (tokenize_and_normalize stem query) b → a = b) :
    print_top_5_urls result_docs inverted_index stem query urls =
      print_top_5_urls result_docs' inverted_index stem query urls := by
  have hmem : ∀ x, x ∈ ranked_docs result_docs inverted_index
      (tokenize_and_normalize stem query) → x ∈ result_docs :=
    fun x hx => (ranked_docs_perm _ _ _).mem_iff.1 hx
  have hr : ranked_docs result_docs inverted_index
        (tokenize_and_normalize stem query) =
      ranked_docs result_docs' inverted_index
        (tokenize_and_normalize stem query) := by
    apply eq_of_perm_of_sorted_of_inj
      (docScore inverted_index (tokenize_and_normalize stem query))
    · exact (ranked_docs_perm _ _ _).trans
        (hperm.trans (ranked_docs_perm _ _ _).symm)
    · exact ranked_docs_sorted _ _ _
    · exact ranked_docs_sorted _ _ _
    · intro x hx y hy hxy
      exact hinj x (hmem x hx) y (hmem y hy) hxy
  rw [print_top_5_urls, print_top_5_urls, top_docs, top_docs, hr]

/-- C6 amended witness: with distinct scores (`{"cat": {"D1": 1, "D2":
2}}`, query `"cat"`), the two iteration orders of `{"D1", "D2"}` give the
same ranked output. -/
theorem C6_deterministic_without_ties_witness :
    print_top_5_urls ["D1", "D2"] [("cat", [("D1", (1 : ℚ)), ("D2", (2 : ℚ))])]
        id "cat" [("D1", "u1"), ("D2", "u2")] =
      print_top_5_urls ["D2", "D1"] [("cat", [("D1", (1 : ℚ)), ("D2", (2 : ℚ))])]
        id "cat" [("D1", "u1"), ("D2", "u2")] := by
  apply C6_deterministic_without_ties
  · exact List.Perm.swap "D2" "D1" []
  · have hs1 : docScore [("cat", [("D1", (1 : ℚ)), ("D2", (2 : ℚ))])]
        (tokenize_and_normalize id "cat") "D1" = 1 := by
      rw [show tokenize_and_normalize id "cat" = ["cat"] from rfl, docScore,
        show (["cat"].filter
          (fun t => alMem [("cat", [("D1", (1 : ℚ)), ("D2", (2 : ℚ))])] t)) = ["cat"]
          from rfl,
        show (["cat"].map
          (fun t => idxWeight [("cat", [("D1", (1 : ℚ)), ("D2", (2 : ℚ))])] t "D1")) =
          [1] from rfl]
      simp
    have hs2 : docScore [("cat", [("D1", (1 : ℚ)), ("D2", (2 : ℚ))])]
        (tokenize_and_normalize id "cat") "D2" = 2 := by
      rw [show tokenize_and_normalize id "cat" = ["cat"] from rfl, docScore,
        show (["cat"].filter
          (fun t => alMem [("cat", [("D1", (1 : ℚ)), ("D2", (2 : ℚ))])] t)) = ["cat"]
          from rfl,
        show (["cat"].map
          (fun t => idxWeight [("cat", [("D1", (1 : ℚ)), ("D2", (2 : ℚ))])] t "D2")) =
          [2] from rfl]
      simp
    intro a ha b hb hab
    rcases List.mem_cons.1 ha with rfl | ha'
    · rcases List.mem_cons.1 hb with rfl | hb'
      · rfl
      · rcases List.mem_singleton.1 hb' with rfl
        rw [hs1, hs2] at hab
        norm_num at hab
    · rcases List.mem_singleton.1 ha' with rfl
      rcases List.mem_cons.1 hb with rfl | hb'
      · rw [hs1, hs2] at hab
        norm_num at hab
      · rcases List.mem_singleton.1 hb' with rfl
        rfl

/-! ### C10: scores sum over query-token occurrences -/

theorem docScore_cons (idx : InvIndex) (t : Term) (ts : List Term) (d : DocID) :
    docScore idx (t :: ts) d =
      (if alMem idx t then idxWeight idx t d else 0) + docScore idx ts d := by
  by_cases hp : alMem idx t
  · simp [docScore, List.filter_cons, hp]
  · simp [docScore, List.filter_cons, hp]

theorem docScore_append (idx : InvIndex) (ts1 ts2 : List Term) (d : DocID) :
    docScore idx (ts1 ++ ts2) d = docScore idx ts1 d + docScore idx ts2 d := by
  simp [docScore, List.filter_append]

/-- C10: the ranking score iterates over query-token occurrences, not
distinct terms — scores add over query concatenation, a term repeated `n`
times contributes `n` times its weight, repeating a term that is already
in the query leaves the boolean result set unchanged, and over the index
`{"a": {"D1": 1, "D2": 3}, "b": {"D1": 3, "D2": 1}}` the query terms
`["a", "b"]` tie `"D1"` and `"D2"` while the duplicated `["a", "a", "b"]`
breaks the tie — duplication changes relative scores. -/
theorem C10_score_multiplicity (idx : InvIndex) (ts1 ts2 : List Term)
    (d : DocID) (n : Nat) (t : Term) (hts : t ∈ ts1) :
    (docScore idx (ts1 ++ ts2) d = docScore idx ts1 d + docScore idx ts2 d) ∧
    (docScore idx (List.replicate n t) d =
      (n : ℚ) * (if alMem idx t then idxWeight idx t d else 0)) ∧
    (boolSearchTokens idx (ts1 ++ [t]) = boolSearchTokens idx ts1) ∧
    (docScore [("a", [("D1", (1 : ℚ)), ("D2", (3 : ℚ))]),
        ("b", [("D1", (3 : ℚ)), ("D2", (1 : ℚ))])] ["a", "b"] "D1" =
      docScore [("a", [("D1", (1 : ℚ)), ("D2", (3 : ℚ))]),
        ("b", [("D1", (3 : ℚ)), ("D2", (1 : ℚ))])] ["a", "b"] "D2" ∧
    docScore [("a", [("D1", (1 : ℚ)), ("D2", (3 : ℚ))]),
        ("b", [("D1", (3 : ℚ)), ("D2", (1 : ℚ))])] ["a", "a", "b"] "D1" ≠
      docScore [("a", [("D1", (1 : ℚ)), ("D2", (3 : ℚ))]),
        ("b", [("D1", (3 : ℚ)), ("D2", (1 : ℚ))])] ["a", "a", "b"] "D2") := by
  refine ⟨docScore_append idx ts1 ts2 d, ?_, ?_, ?_, ?_⟩
  · induction n with
    | zero => simp [docScore]
    | succ k ih =>
        rw [List.replicate_succ, docScore_cons, ih]
        push_cast
        ring
  · apply Finset.ext
    intro x
    rw [boolSearchTokens_mem, boolSearchTokens_mem]
    constructor
    · rintro ⟨⟨u, hu, hp⟩, hall⟩
      refine ⟨?_, fun v hv hvp => hall v (List.mem_append_left _ hv) hvp⟩
      rcases List.mem_append.1 hu with hu' | hu'
      · exact ⟨u, hu', hp⟩
      · rcases List.mem_singleton.1 hu' with rfl
        exact ⟨u, hts, hp⟩
    · rintro ⟨⟨u, hu, hp⟩, hall⟩
      refine ⟨⟨u, List.mem_append_left _ hu, hp⟩, ?_⟩
      intro v hv hvp
      rcases List.mem_append.1 hv with hv' | hv'
      · exact hall v hv' hvp
      · rcases List.mem_singleton.1 hv' with rfl
        exact hall v hts hvp
  · rw [docScore,
      show ((["a", "b"].filter (fun u => alMem [("a", [("D1", (1 : ℚ)), ("D2", (3 : ℚ))]),
          ("b", [("D1", (3 : ℚ)), ("D2", (1 : ℚ))])] u))) = ["a", "b"] from rfl,
      show (["a", "b"].map (fun u => idxWeight [("a", [("D1", (1 : ℚ)), ("D2", (3 : ℚ))]),
          ("b", [("D1", (3 : ℚ)), ("D2", (1 : ℚ))])] u "D1")) = [1, 3] from rfl,
      docScore,
      show ((["a", "b"].filter (fun u => alMem [("a", [("D1", (1 : ℚ)), ("D2", (3 : ℚ))]),
          ("b", [("D1", (3 : ℚ)), ("D2", (1 : ℚ))])] u))) = ["a", "b"] from rfl,
      show (["a", "b"].map (fun u => idxWeight [("a", [("D1", (1 : ℚ)), ("D2", (3 : ℚ))]),
          ("b", [("D1", (3 : ℚ)), ("D2", (1 : ℚ))])] u "D2")) = [3, 1] from rfl]
    norm_num
  · rw [docScore,
      show ((["a", "a", "b"].filter (fun u => alMem [("a", [("D1", (1 : ℚ)), ("D2", (3 : ℚ))]),
          ("b", [("D1", (3 : ℚ)), ("D2", (1 : ℚ))])] u))) = ["a", "a", "b"] from rfl,
      show (["a", "a", "b"].map (fun u => idxWeight [("a", [("D1", (1 : ℚ)), ("D2", (3 : ℚ))]),
          ("b", [("D1", (3 : ℚ)), ("D2", (1 : ℚ))])] u "D1")) = [1, 1, 3] from rfl,
      docScore,
      show ((["a", "a", "b"].filter (fun u => alMem [("a", [("D1", (1 : ℚ)), ("D2", (3 : ℚ))]),
          ("b", [("D1", (3 : ℚ)), ("D2", (1 : ℚ))])] u))) = ["a", "a", "b"] from rfl,
      show (["a", "a", "b"].map (fun u => idxWeight [("a", [("D1", (1 : ℚ)), ("D2", (3 : ℚ))]),
          ("b", [("D1", (3 : ℚ)), ("D2", (1 : ℚ))])] u "D2")) = [3, 3, 1] from rfl]
    norm_num

/-- C10 witness: the additivity conjunct applied over the tie-breaking
index at query terms `["a"]` and `["b"]` for document `"D1"`. -/
theorem C10_score_multiplicity_witness :
    docScore [("a", [("D1", (1 : ℚ)), ("D2", (3 : ℚ))]),
        ("b", [("D1", (3 : ℚ)), ("D2", (1 : ℚ))])] (["a"] ++ ["b"]) "D1" =
      docScore [("a", [("D1", (1 : ℚ)), ("D2", (3 : ℚ))]),
          ("b", [("D1", (3 : ℚ)), ("D2", (1 : ℚ))])] ["a"] "D1" +
        docScore [("a", [("D1", (1 : ℚ)), ("D2", (3 : ℚ))]),
          ("b", [("D1", (3 : ℚ)), ("D2", (1 : ℚ))])] ["b"] "D1" :=
  (C10_score_multiplicity [("a", [("D1", (1 : ℚ)), ("D2", (3 : ℚ))]),
    ("b", [("D1", (3 : ℚ)), ("D2", (1 : ℚ))])] ["a"] ["b"] "D1" 2 "a"
    (List.mem_cons_self _ _)).1

/-! ### C5: segment flush schedule -/

/-- The loop invariant of `process_all_documents`: part numbers count up
from 1 in step with the flushed files, the number of flushed segments is
`doc_count / 10000`, and at exact multiples of the batch size the
in-memory index has just been cleared. -/
def IngestInv (s : IngestState) : Prop :=
  s.part_num = s.partial_files.length + 1 ∧
  s.partial_files =
    (List.range' 1 s.partial_files.length).map save_partial_index ∧
  s.partial_files.length = s.doc_count / 10000 ∧
  (s.doc_count % 10000 = 0 → s.inverted_index = [])

theorem ingestInv_init : IngestInv initState := by
  refine ⟨rfl, rfl, rfl, fun _ => rfl⟩

theorem ingestInv_step (stem : String → String)
    (extractor : String → Except String (String × String))
    (s : IngestState) (d : SrcDoc) (h : IngestInv s) :
    IngestInv (processDoc stem extractor s d) := by
  obtain ⟨h1, h2, h3, h4⟩ := h
  unfold processDoc
  split
  · dsimp only
    split
    · exact ⟨h1, h2, h3, h4⟩
    · split
      · rename_i hm
        refine ⟨?_, ?_, ?_, fun _ => rfl⟩
        · simp [h1]
        · show s.partial_files ++ [save_partial_index s.part_num] =
            (List.range' 1 (s.partial_files ++
              [save_partial_index s.part_num]).length).map save_partial_index
          rw [List.length_append, List.length_singleton, List.range'_concat,
            List.map_append]
          rw [← h2, h1]
          simp [Nat.add_comm]
        · show (s.partial_files ++ [save_partial_index s.part_num]).length =
            (s.doc_count + 1) / 10000
          rw [List.length_append, List.length_singleton, h3,
            Nat.succ_div_of_dvd (Nat.dvd_of_mod_eq_zero hm)]
      · rename_i hm
        refine ⟨h1, h2, ?_, fun hz => absurd hz hm⟩
        show s.partial_files.length = (s.doc_count + 1) / 10000
        rw [h3, Nat.succ_div_of_not_dvd
          (fun hdvd => hm (Nat.mod_eq_zero_of_dvd hdvd))]
  · exact ⟨h1, h2, h3, h4⟩

theorem ingestInv_fold (stem : String → String)
    (extractor : String → Except String (String × String)) (docs : List SrcDoc) :
    IngestInv (docs.foldl (processDoc stem extractor) initState) := by
  suffices h : ∀ s, IngestInv s → IngestInv (docs.foldl (processDoc stem extractor) s) by
    exact h initState ingestInv_init
  induction docs with
  | nil => exact fun s hs => hs
  | cons d rest ih => exact fun s hs => ih _ (ingestInv_step _ _ _ _ hs)

theorem processDoc_counted (stem : String → String)
    (extractor : String → Except String (String × String))
    (s : IngestState) (d : SrcDoc) (hj : d.isJson = true)
    (hc : (read_json_file d.raw).1 ≠ "") :
    (processDoc stem extractor s d).doc_count = s.doc_count + 1 ∧
    ((s.doc_count + 1) % 10000 = 0 →
      (processDoc stem extractor s d).inverted_index = [] ∧
      (processDoc stem extractor s d).partial_files =
        s.partial_files ++ [save_partial_index s.part_num] ∧
      (processDoc stem extractor s d).part_num = s.part_num + 1) ∧
    ((s.doc_count + 1) % 10000 ≠ 0 →
      (processDoc stem extractor s d).partial_files = s.partial_files ∧
      (processDoc stem extractor s d).part_num = s.part_num ∧
      (processDoc stem extractor s d).inverted_index =
        build_inverted_index d.path
          (tokenize_and_normalize stem
            (extract_text_from_html (extractor (read_json_file d.raw).1)).1)
          (tokenize_and_normalize stem
            (extract_text_from_html (extractor (read_json_file d.raw).1)).2)
          s.inverted_index) := by
  unfold processDoc
  rw [if_pos hj]
  dsimp only
  rw [if_neg hc]
  by_cases hm : (s.doc_count + 1) % 10000 = 0
  · rw [if_pos hm]
    exact ⟨rfl, fun _ => ⟨rfl, rfl, rfl⟩, fun hn => absurd hm hn⟩
  · rw [if_neg hm]
    exact ⟨rfl, fun hz => absurd hz hm, fun _ => ⟨rfl, rfl, rfl⟩⟩

/-- C5: the returned segment filenames carry part numbers `1, 2, …` in
creation order; the number of segments is `doc_count / 10000` batch
flushes plus one final flush exactly when the leftover in-memory index is
non-empty; and a counted document triggers a flush — index cleared, one
filename appended, part number bumped — exactly when the running count
reaches a multiple of 10000, leaving the segment list untouched
otherwise. -/
theorem C5_flush_schedule (stem : String → String)
    (extractor : String → Except String (String × String)) (docs : List SrcDoc) :
    (process_all_documents stem extractor docs =
      (List.range' 1 (process_all_documents stem extractor docs).length).map
        save_partial_index) ∧
    ((process_all_documents stem extractor docs).length =
      (docs.foldl (processDoc stem extractor) initState).doc_count / 10000 +
        (if (docs.foldl (processDoc stem extractor) initState).inverted_index = []
          then 0 else 1)) ∧
    (∀ (s : IngestState) (d : SrcDoc), d.isJson = true →
      (read_json_file d.raw).1 ≠ "" →
      (processDoc stem extractor s d).doc_count = s.doc_count + 1 ∧
      ((s.doc_count + 1) % 10000 = 0 →
        (processDoc stem extractor s d).inverted_index = [] ∧
        (processDoc stem extractor s d).partial_files =
          s.partial_files ++ [save_partial_index s.part_num] ∧
        (processDoc stem extractor s d).part_num = s.part_num + 1) ∧
      ((s.doc_count + 1) % 10000 ≠ 0 →
        (processDoc stem extractor s d).partial_files = s.partial_files ∧
        (processDoc stem extractor s d).part_num = s.part_num ∧
        (processDoc stem extractor s d).inverted_index =
          build_inverted_index d.path
            (tokenize_and_normalize stem
              (extract_text_from_html (extractor (read_json_file d.raw).1)).1)
            (tokenize_and_normalize stem
              (extract_text_from_html (extractor (read_json_file d.raw).1)).2)
            s.inverted_index)) := by
  obtain ⟨h1, h2, h3, h4⟩ := ingestInv_fold stem extractor docs
  refine ⟨?_, ?_, fun s' d hj hc => processDoc_counted stem extractor s' d hj hc⟩
  · rw [process_all_documents]
    by_cases hz :
        (docs.foldl (processDoc stem extractor) initState).inverted_index = []
    · rw [if_pos hz]
      exact h2
    · rw [if_neg hz]
      rw [List.length_append, List.length_singleton, List.range'_concat,
        List.map_append]
      nth_rewrite 1 [h2]
      rw [h1]
      simp [Nat.add_comm]
  · rw [process_all_documents]
    by_cases hz :
        (docs.foldl (processDoc stem extractor) initState).inverted_index = []
    · rw [if_pos hz, if_pos hz, Nat.add_zero]
      exact h3
    · rw [if_neg hz, if_neg hz, List.length_append, List.length_singleton, h3]

/-- C5 witness: a counted document arriving at running count 9999 flushes
segment `partial_index_1.json`, clears the index and bumps the part
number. -/
theorem C5_flush_schedule_witness :
    (processDoc id (fun c => Except.ok (c, ""))
        { doc_count := 9999, part_num := 1, partial_files := [],
          inverted_index := [], doc_id_to_url := [] }
        ⟨"a.json", true, Except.ok ("cat", "u")⟩).doc_count = 10000 ∧
    (processDoc id (fun c => Except.ok (c, ""))
        { doc_count := 9999, part_num := 1, partial_files := [],
          inverted_index := [], doc_id_to_url := [] }
        ⟨"a.json", true, Except.ok ("cat", "u")⟩).inverted_index = [] ∧
    (processDoc id (fun c => Except.ok (c, ""))
        { doc_count := 9999, part_num := 1, partial_files := [],
          inverted_index := [], doc_id_to_url := [] }
        ⟨"a.json", true, Except.ok ("cat", "u")⟩).partial_files =
      [save_partial_index 1] ∧
    (processDoc id (fun c => Except.ok (c, ""))
        { doc_count := 9999, part_num := 1, partial_files := [],
          inverted_index := [], doc_id_to_url := [] }
        ⟨"a.json", true, Except.ok ("cat", "u")⟩).part_num = 2 := by
  have h := (C5_flush_schedule id (fun c => Except.ok (c, "")) []).2.2
    { doc_count := 9999, part_num := 1, partial_files := [],
      inverted_index := [], doc_id_to_url := [] }
    ⟨"a.json", true, Except.ok ("cat", "u")⟩ rfl (by decide)
  obtain ⟨hcount, hflush, -⟩ := h
  obtain ⟨hidx, hfiles, hpart⟩ := hflush (by decide)
  exact ⟨hcount, hidx, hfiles, hpart⟩

/-! ### C7: local recovery of read and extraction failures -/

theorem processDoc_read_failure (stem : String → String)
    (extractor : String → Except String (String × String))
    (s : IngestState) (d : SrcDoc) (e : String)
    (hraw : d.raw = Except.error e) :
    processDoc stem extractor s d = s := by
  unfold processDoc
  split
  · dsimp only
    rw [hraw, show read_json_file (Except.error e) = ("", "") from rfl,
      if_pos rfl]
  · rfl

/-- C7: a failed read yields `("", "")`, so the document is skipped and
the whole run over the remaining documents is the same as if the document
were absent (never aborting the batch); a failed extraction yields
`("", "")`, whose tokenization is empty, an empty token list adds no
postings, and the step behaves exactly as if the extractor had returned
empty text. -/
theorem C7_local_recovery (stem : String → String)
    (extractor : String → Except String (String × String))
    (pre post : List SrcDoc) (bad : SrcDoc) (e : String)
    (hraw : bad.raw = Except.error e)
    (s : IngestState) (bad2 : SrcDoc) (e2 : String)
    (hext : extractor (read_json_file bad2.raw).1 = Except.error e2) :
    (read_json_file (Except.error e) = ("", "")) ∧
    (processDoc stem extractor s bad = s) ∧
    ((pre ++ bad :: post).foldl (processDoc stem extractor) initState =
      (pre ++ post).foldl (processDoc stem extractor) initState) ∧
    (extract_text_from_html (Except.error e2) = ("", "")) ∧
    (tokenize_and_normalize stem "" = []) ∧
    (∀ (p : DocID) (ks : List Term) (idx : InvIndex),
      build_inverted_index p [] ks idx = idx) ∧
    (∀ extractor' : String → Except String (String × String),
      extractor' (read_json_file bad2.raw).1 = Except.ok ("", "") →
      processDoc stem extractor s bad2 = processDoc stem extractor' s bad2) := by
  refine ⟨rfl, processDoc_read_failure stem extractor s bad e hraw, ?_, rfl, rfl,
    fun p ks idx => rfl, ?_⟩
  · rw [List.foldl_append, List.foldl_append, List.foldl_cons,
      processDoc_read_failure stem extractor _ bad e hraw]
  · intro extractor' hext'
    unfold processDoc
    split
    · dsimp only
      split
      · rfl
      · rw [hext, hext']
        rfl
    · rfl

/-- C7 witness: with a read failure (`"boom"`) the document leaves the
state untouched and dropping it from the batch gives the identical run;
with an always-failing extractor the step equals the empty-text step. -/
theorem C7_local_recovery_witness :
    (processDoc id (fun _ => Except.error "parse") initState
        ⟨"b.json", true, Except.error "boom"⟩ = initState) ∧
    (([⟨"a.json", true, Except.ok ("cat", "u")⟩,
        ⟨"b.json", true, Except.error "boom"⟩] : List SrcDoc).foldl
        (processDoc id (fun _ => Except.error "parse")) initState =
      ([⟨"a.json", true, Except.ok ("cat", "u")⟩] : List SrcDoc).foldl
        (processDoc id (fun _ => Except.error "parse")) initState) ∧
    (processDoc id (fun _ => Except.error "parse") initState
        ⟨"c.json", true, Except.ok ("cat", "u")⟩ =
      processDoc id (fun _ => Except.ok ("", "")) initState
        ⟨"c.json", true, Except.ok ("cat", "u")⟩) := by
  have h := C7_local_recovery id (fun _ => Except.error "parse")
    [⟨"a.json", true, Except.ok ("cat", "u")⟩] []
    ⟨"b.json", true, Except.error "boom"⟩ "boom" rfl initState
    ⟨"c.json", true, Except.ok ("cat", "u")⟩ "parse" rfl
  exact ⟨h.2.1, h.2.2.1, h.2.2.2.2.2.2 (fun _ => Except.ok ("", "")) rfl⟩

end Crawler
